import Mathlib

/-!
Shallow embedding of the name reorder step found in
internal/prepare/pipeline_reorder.go of the watchman repository.
Strings are modeled as lists of Unicode scalar values (Lean Char),
which is how the Go regexp engine and the strings package view a
string (rune by rune).
-/

namespace Prepare

/-- Membership in the character class of the pattern (,?[\s?a-zA-Z\.]+)$
compiled into the package variable surnamePrecedes. In RE2 the escape \s
stands for tab, line feed, form feed, carriage return and space; the class
furthermore holds the question mark, the ASCII letters and the period. -/
def isClassChar (c : Char) : Bool :=
  decide (c.toNat = 9 ∨ c.toNat = 10 ∨ c.toNat = 12 ∨ c.toNat = 13 ∨ c.toNat = 32 ∨
    c.toNat = 63 ∨ (97 ≤ c.toNat ∧ c.toNat ≤ 122) ∨ (65 ≤ c.toNat ∧ c.toNat ≤ 90) ∨
    c.toNat = 46)

/-- Decides whether the pattern (,?[\s?a-zA-Z\.]+)$ matches starting at the
current position: an optional comma, then at least one class character, and
the match must extend to the end of the input. -/
def matchesHere : List Char → Bool
  | [] => false
  | c :: rest =>
    if c = ',' then !rest.isEmpty && rest.all isClassChar
    else isClassChar c && rest.all isClassChar

/-- Semantics of surnamePrecedes.FindString: the leftmost match of the
pattern, or the empty string when there is none. The pattern is anchored at
the end, so every match runs to the end of the input and the leftmost match
is the longest suffix on which the pattern matches. -/
def surnamePrecedesFind : List Char → List Char
  | [] => []
  | c :: rest => if matchesHere (c :: rest) then c :: rest else surnamePrecedesFind rest

/-- Semantics of strings.HasSuffix. -/
def hasSuffix (s suffix : List Char) : Bool :=
  decide (suffix.length ≤ s.length ∧ s.drop (s.length - suffix.length) = suffix)

/-- Semantics of strings.TrimSuffix. -/
def trimSuffix (s suffix : List Char) : List Char :=
  if hasSuffix s suffix then s.take (s.length - suffix.length) else s

/-- Semantics of the call strings.TrimPrefix(v, the one character string
holding a comma), the only such call in ReorderSDNName: one leading comma is
removed when present. -/
def dropLeadingComma : List Char → List Char
  | [] => []
  | c :: rest => if c = ',' then rest else c :: rest

/-- Semantics of unicode.IsSpace: the Unicode white space property. -/
def goIsSpace (c : Char) : Bool :=
  decide (c.toNat = 9 ∨ c.toNat = 10 ∨ c.toNat = 11 ∨ c.toNat = 12 ∨ c.toNat = 13 ∨
    c.toNat = 32 ∨ c.toNat = 133 ∨ c.toNat = 160 ∨ c.toNat = 5760 ∨
    (8192 ≤ c.toNat ∧ c.toNat ≤ 8202) ∨ c.toNat = 8232 ∨ c.toNat = 8233 ∨
    c.toNat = 8239 ∨ c.toNat = 8287 ∨ c.toNat = 12288)

/-- Leading white space removal, the left half of strings.TrimSpace. -/
def trimLeft (s : List Char) : List Char := s.dropWhile goIsSpace

/-- Trailing white space removal, the right half of strings.TrimSpace. -/
def trimRight (s : List Char) : List Char := (s.reverse.dropWhile goIsSpace).reverse

/-- Semantics of strings.TrimSpace. -/
def trimSpace (s : List Char) : List Char := trimRight (trimLeft s)

/-- Runes of the literal "individual". -/
def individualChars : List Char := "individual".toList

/-- One pair of runes compared as strings.EqualFold compares them when at
least one side is an ASCII letter whose simple fold orbit has exactly its
two ASCII cases: equal runes match, and an ASCII upper case letter matches
the letter thirty two code points above it. -/
def foldPair (x y : Char) : Bool :=
  decide (x = y ∨ (65 ≤ x.toNat ∧ x.toNat ≤ 90 ∧ x.toNat + 32 = y.toNat) ∨
    (65 ≤ y.toNat ∧ y.toNat ≤ 90 ∧ y.toNat + 32 = x.toNat))

/-- Rune by rune fold comparison of two rune lists. -/
def equalFoldAscii : List Char → List Char → Bool
  | [], [] => true
  | x :: s, y :: t => foldPair x y && equalFoldAscii s t
  | _, _ => false

/-- Semantics of strings.EqualFold(tpe, "individual"). Go folds runes with
Unicode simple folding; every rune of the target "individual" has a fold
orbit consisting of exactly its two ASCII cases, so on this target the
Unicode folding agrees with ASCII folding for every input rune. -/
def equalFoldIndividual (tpe : List Char) : Bool := equalFoldAscii tpe individualChars

/-- Shallow embedding of ReorderSDNName from pipeline_reorder.go: on a type
other than individual the name passes through; otherwise the leftmost match
of surnamePrecedes is located, and when present the match (minus one leading
comma) is moved in front of the remaining beginning of the name, joined with
one space and trimmed. -/
def ReorderSDNName (name tpe : List Char) : List Char :=
  if equalFoldIndividual tpe = false then name
  else
    let v := surnamePrecedesFind name
    if v = [] then name
    else trimSpace (dropLeadingComma v ++ ' ' :: trimSuffix name v)

/-- Convenience conversion from a string literal to its rune list. -/
def str (s : String) : List Char := s.toList

/-- Characters retained by the content comparison: everything except white
space and commas. -/
def keepChar (c : Char) : Bool := !goIsSpace c && !(c == ',')

/-- Character set named by the specification text for the trailing pattern:
letters, spaces and periods. -/
def specSuffixChar (c : Char) : Bool :=
  decide ((97 ≤ c.toNat ∧ c.toNat ≤ 122) ∨ (65 ≤ c.toNat ∧ c.toNat ≤ 90) ∨
    c.toNat = 32 ∨ c.toNat = 46)

/-- ASCII letters, the letter set of the pattern class. -/
def isAsciiLetter (c : Char) : Bool :=
  decide ((97 ≤ c.toNat ∧ c.toNat ≤ 122) ∨ (65 ≤ c.toNat ∧ c.toNat ≤ 90))

/-! Structural facts about the leftmost match of the anchored pattern. -/

/-- The found match is a suffix of the input. -/
theorem find_suffix (s : List Char) : ∃ pre, pre ++ surnamePrecedesFind s = s := by
  induction s with
  | nil => exact ⟨[], rfl⟩
  | cons c rest ih =>
    cases hm : matchesHere (c :: rest) with
    | true => exact ⟨[], by simp [surnamePrecedesFind, hm]⟩
    | false =>
      obtain ⟨p, hp⟩ := ih
      exact ⟨c :: p, by simp [surnamePrecedesFind, hm, hp]⟩

/-- A nonempty found match satisfies the pattern. -/
theorem find_matches (s : List Char) (h : surnamePrecedesFind s ≠ []) :
    matchesHere (surnamePrecedesFind s) = true := by
  induction s with
  | nil => simp [surnamePrecedesFind] at h
  | cons c rest ih =>
    cases hm : matchesHere (c :: rest) with
    | true => simp [surnamePrecedesFind, hm]
    | false =>
      simp only [surnamePrecedesFind, hm, Bool.false_eq_true, if_false] at h ⊢
      exact ih h

/-- The found match is the longest matching suffix: any strictly longer
suffix fails the pattern. -/
theorem find_longest (s : List Char) : ∀ (t pre : List Char), pre ++ t = s →
    (surnamePrecedesFind s).length < t.length → matchesHere t = false := by
  induction s with
  | nil =>
    intro t pre hpre hl
    have ht : t = [] := (List.append_eq_nil.mp hpre).2
    subst ht
    simp [matchesHere]
  | cons a s' ih =>
    intro t pre hpre hl
    cases pre with
    | nil =>
      simp only [List.nil_append] at hpre
      subst hpre
      cases hm : matchesHere (a :: s') with
      | false => rfl
      | true =>
        rw [surnamePrecedesFind, if_pos hm] at hl
        exact absurd hl (lt_irrefl _)
    | cons b pre' =>
      rw [List.cons_append] at hpre
      injection hpre with hb hrest
      cases hm : matchesHere (a :: s') with
      | true =>
        rw [surnamePrecedesFind, if_pos hm] at hl
        exfalso
        have ht : t.length ≤ s'.length := by
          rw [← hrest, List.length_append]; omega
        simp only [List.length_cons] at hl
        omega
      | false =>
        rw [surnamePrecedesFind, if_neg (by simp [hm])] at hl
        exact ih t pre' hrest hl

/-- A matching string that does not begin with a comma is entirely made of
class characters. -/
theorem matches_all_of_not_comma (c : Char) (rest : List Char)
    (h : matchesHere (c :: rest) = true) (hc : c ≠ ',') :
    (c :: rest).all isClassChar = true := by
  simp only [matchesHere, if_neg hc] at h
  simpa using h

/-- A matching string that begins with a comma has a nonempty all class
remainder. -/
theorem matches_comma (rest : List Char) (h : matchesHere (',' :: rest) = true) :
    rest ≠ [] ∧ rest.all isClassChar = true := by
  rw [matchesHere, if_pos rfl, Bool.and_eq_true, Bool.not_eq_true'] at h
  refine ⟨?_, h.2⟩
  intro hr
  rw [hr] at h
  simp at h

/-- A class character is not a comma. -/
theorem class_ne_comma (x : Char) (h : isClassChar x = true) : x ≠ ',' := by
  intro hx
  rw [hx] at h
  exact absurd h (by decide)

/-- After removing a leading comma a matching string is nonempty and made of
class characters only. -/
theorem matches_dropComma (v : List Char) (h : matchesHere v = true) :
    dropLeadingComma v ≠ [] ∧ (dropLeadingComma v).all isClassChar = true := by
  cases v with
  | nil => simp [matchesHere] at h
  | cons c rest =>
    by_cases hc : c = ','
    · subst hc
      obtain ⟨h1, h2⟩ := matches_comma rest h
      have hd : dropLeadingComma (',' :: rest) = rest := by simp [dropLeadingComma]
      rw [hd]
      exact ⟨h1, h2⟩
    · have hall := matches_all_of_not_comma c rest h hc
      have hd : dropLeadingComma (c :: rest) = c :: rest := by simp [dropLeadingComma, hc]
      rw [hd]
      exact ⟨by simp, hall⟩

/-- Elements named by getLast? of an all true list satisfy the predicate. -/
theorem getLast?_all {l : List Char} {p : Char → Bool} (h : l.all p = true)
    {x : Char} (hx : l.getLast? = some x) : p x = true :=
  List.all_eq_true.mp h x (List.mem_of_mem_getLast? hx)

/-- A matching string ends in a class character. -/
theorem matches_last_class (v : List Char) (h : matchesHere v = true) :
    ∃ x, v.getLast? = some x ∧ isClassChar x = true := by
  cases v with
  | nil => simp [matchesHere] at h
  | cons c rest =>
    cases rest with
    | nil =>
      by_cases hc : c = ','
      · subst hc; simp [matchesHere] at h
      · have hall := matches_all_of_not_comma c [] h hc
        exact ⟨c, rfl, by simpa using hall⟩
    | cons r rs =>
      have hall : (r :: rs).all isClassChar = true := by
        by_cases hc : c = ','
        · subst hc; exact (matches_comma _ h).2
        · have hcr := matches_all_of_not_comma c (r :: rs) h hc
          rw [List.all_eq_true] at hcr ⊢
          intro x hx
          exact hcr x (List.mem_cons_of_mem c hx)
      cases hx : (r :: rs).getLast? with
      | none => exact absurd (List.getLast?_eq_none_iff.mp hx) (by simp)
      | some x =>
        refine ⟨x, ?_, getLast?_all hall hx⟩
        rw [List.getLast?_cons_cons]; exact hx

/-- When the pattern matches somewhere, the input ends in a class
character. -/
theorem find_last_class (s : List Char) (h : surnamePrecedesFind s ≠ []) :
    ∃ x, s.getLast? = some x ∧ isClassChar x = true := by
  obtain ⟨pre, hpre⟩ := find_suffix s
  obtain ⟨x, hx, hcx⟩ := matches_last_class _ (find_matches s h)
  refine ⟨x, ?_, hcx⟩
  rw [← hpre, List.getLast?_append, hx]
  rfl

/-- When the input ends in a class character the pattern matches
somewhere. -/
theorem last_class_find (s : List Char) :
    ∀ x, s.getLast? = some x → isClassChar x = true → surnamePrecedesFind s ≠ [] := by
  induction s with
  | nil => intro x hx; simp at hx
  | cons c rest ih =>
    intro x hx hcx
    cases hm : matchesHere (c :: rest) with
    | true => simp [surnamePrecedesFind, hm]
    | false =>
      cases rest with
      | nil =>
        simp only [List.getLast?_singleton, Option.some.injEq] at hx
        subst hx
        have hcc : c ≠ ',' := class_ne_comma c hcx
        simp [matchesHere, hcc, hcx] at hm
      | cons r rs =>
        rw [List.getLast?_cons_cons] at hx
        have := ih x hx hcx
        simpa [surnamePrecedesFind, hm] using this

/-! Facts about dropWhile and the trimming helpers. -/

/-- The dropped part of dropWhile satisfies the predicate everywhere. -/
theorem dropWhile_decomp {p : Char → Bool} (l : List Char) :
    ∃ w, (∀ c ∈ w, p c = true) ∧ w ++ l.dropWhile p = l := by
  induction l with
  | nil => exact ⟨[], by simp, rfl⟩
  | cons a t ih =>
    cases hp : p a with
    | true =>
      obtain ⟨w, hw, he⟩ := ih
      refine ⟨a :: w, ?_, by simp [List.dropWhile_cons, hp, he]⟩
      intro c hc
      rcases List.mem_cons.mp hc with h | h
      · exact h ▸ hp
      · exact hw c h
    | false => exact ⟨[], by simp, by simp [List.dropWhile_cons, hp]⟩

/-- The head of a dropWhile result fails the predicate. -/
theorem dropWhile_head {p : Char → Bool} (l : List Char) {c : Char}
    (h : (l.dropWhile p).head? = some c) : p c = false := by
  induction l with
  | nil => simp at h
  | cons a t ih =>
    cases hp : p a with
    | true => rw [List.dropWhile_cons, if_pos hp] at h; exact ih h
    | false =>
      rw [List.dropWhile_cons, if_neg (by simp [hp])] at h
      simp only [List.head?_cons, Option.some.injEq] at h
      exact h ▸ hp

/-- dropWhile distributes over appending one element that fails the
predicate. -/
theorem dropWhile_append_last {p : Char → Bool} (w : List Char) (d : Char)
    (hd : p d = false) : (w ++ [d]).dropWhile p = w.dropWhile p ++ [d] := by
  induction w with
  | nil => simp [List.dropWhile_cons, hd]
  | cons a t ih =>
    cases hp : p a with
    | true => simp [List.dropWhile_cons, hp, ih]
    | false => simp [List.dropWhile_cons, hp]

/-- dropWhile stops within a first block holding some failing element. -/
theorem dropWhile_append_stop {p : Char → Bool} (u : List Char) (y : List Char)
    (h : ∃ c ∈ u, p c = false) : (u ++ y).dropWhile p = u.dropWhile p ++ y := by
  induction u with
  | nil => obtain ⟨c, hc, _⟩ := h; simp at hc
  | cons a t ih =>
    cases hp : p a with
    | true =>
      obtain ⟨c, hc, hcp⟩ := h
      rcases List.mem_cons.mp hc with he | he
      · rw [he] at hcp; rw [hcp] at hp; cases hp
      · simp [List.dropWhile_cons, hp, ih ⟨c, he, hcp⟩]
    | false => simp [List.dropWhile_cons, hp]

/-- trimRight keeps a string whose last character is not white space. -/
theorem trimRight_of_last (y : List Char) (d : Char) (hy : y.getLast? = some d)
    (hd : goIsSpace d = false) : trimRight y = y := by
  have h1 : y.reverse.head? = some d := by rw [List.head?_reverse]; exact hy
  cases hr : y.reverse with
  | nil => rw [hr] at h1; simp at h1
  | cons a t =>
    rw [hr] at h1
    simp only [List.head?_cons, Option.some.injEq] at h1
    subst h1
    unfold trimRight
    rw [hr, List.dropWhile_cons, if_neg (by simp [hd]), ← hr, List.reverse_reverse]

/-- trimRight absorbs one trailing white space character. -/
theorem trimRight_snoc_space (z : List Char) (c : Char) (hc : goIsSpace c = true) :
    trimRight (z ++ [c]) = trimRight z := by
  unfold trimRight
  rw [List.reverse_append]
  simp only [List.reverse_cons, List.reverse_nil, List.nil_append, List.singleton_append]
  rw [List.dropWhile_cons, if_pos hc]

/-- trimRight is an initial segment of its input and the removed tail is
white space. -/
theorem trimRight_decomp (y : List Char) :
    ∃ t, (∀ c ∈ t, goIsSpace c = true) ∧ trimRight y ++ t = y := by
  obtain ⟨w, hw, he⟩ := dropWhile_decomp (p := goIsSpace) y.reverse
  refine ⟨w.reverse, fun c hc => hw c (List.mem_reverse.mp hc), ?_⟩
  have : (w ++ y.reverse.dropWhile goIsSpace).reverse = y.reverse.reverse := by rw [he]
  simpa [trimRight, List.reverse_append] using this

/-- The head survives trimRight. -/
theorem trimRight_head (y : List Char) {c : Char}
    (h : (trimRight y).head? = some c) : y.head? = some c := by
  obtain ⟨t, _, he⟩ := trimRight_decomp y
  rw [← he]
  cases htr : trimRight y with
  | nil => rw [htr] at h; simp at h
  | cons a w => rw [htr] at h; simpa using h

/-- The first character after trimming is not white space. -/
theorem trimSpace_head (s : List Char) {c : Char}
    (h : (trimSpace s).head? = some c) : goIsSpace c = false :=
  dropWhile_head s (trimRight_head (trimLeft s) h)

/-- The last character after trimming is not white space. -/
theorem trimSpace_last (s : List Char) {c : Char}
    (h : (trimSpace s).getLast? = some c) : goIsSpace c = false := by
  unfold trimSpace trimRight at h
  rw [List.getLast?_reverse] at h
  exact dropWhile_head _ h

/-- trimLeft keeps a string whose head is not white space. -/
theorem trimLeft_of_head (o : List Char) {c : Char} (h : o.head? = some c)
    (hc : goIsSpace c = false) : trimLeft o = o := by
  cases o with
  | nil => simp at h
  | cons a t =>
    simp only [List.head?_cons, Option.some.injEq] at h
    subst h
    unfold trimLeft
    rw [List.dropWhile_cons, if_neg (by simp [hc])]

/-- trimSpace is idempotent. -/
theorem trimSpace_idem (s : List Char) : trimSpace (trimSpace s) = trimSpace s := by
  cases ho : trimSpace s with
  | nil => rfl
  | cons a t =>
    have hhead : goIsSpace a = false := trimSpace_head s (by rw [ho]; rfl)
    cases hlast : (a :: t).getLast? with
    | none => exact absurd (List.getLast?_eq_none_iff.mp hlast) (by simp)
    | some d =>
      have hdlast : goIsSpace d = false := trimSpace_last s (by rw [ho]; exact hlast)
      show trimRight (trimLeft (a :: t)) = a :: t
      rw [trimLeft_of_head (a :: t) rfl hhead, trimRight_of_last (a :: t) d hlast hdlast]

/-- trimSpace absorbs one trailing white space character. -/
theorem trimSpace_snoc_space (z : List Char) (c : Char) (hc : goIsSpace c = true) :
    trimSpace (z ++ [c]) = trimSpace z := by
  by_cases hall : ∀ x ∈ z, goIsSpace x = true
  · have h1 : trimLeft (z ++ [c]) = [] := by
      apply List.dropWhile_eq_nil_iff.mpr
      intro x hx
      rcases List.mem_append.mp hx with h | h
      · exact hall x h
      · simp only [List.mem_singleton] at h; exact h ▸ hc
    have h2 : trimLeft z = [] := List.dropWhile_eq_nil_iff.mpr hall
    unfold trimSpace
    rw [h1, h2]
  · push_neg at hall
    obtain ⟨x, hx, hxp⟩ := hall
    have hxf : goIsSpace x = false := by simpa using hxp
    unfold trimSpace trimLeft
    rw [dropWhile_append_stop z [c] ⟨x, hx, hxf⟩]
    exact trimRight_snoc_space _ c hc

/-- Characters of the trimmed string come from the input. -/
theorem trimSpace_subset (s : List Char) : ∀ c ∈ trimSpace s, c ∈ s := by
  intro c hc
  obtain ⟨t, _, he⟩ := trimRight_decomp (trimLeft s)
  obtain ⟨w, _, hw⟩ := dropWhile_decomp (p := goIsSpace) s
  have h1 : c ∈ trimLeft s := by
    rw [← he]; exact List.mem_append.mpr (Or.inl hc)
  rw [← hw]
  exact List.mem_append.mpr (Or.inr h1)

/-! Evaluation rules for ReorderSDNName. -/

/-- The literal type individual folds to itself. -/
theorem fold_individual : equalFoldIndividual individualChars = true := by decide

/-- A type that does not fold to individual passes the name through. -/
theorem reorder_notfold (name tpe : List Char) (h : equalFoldIndividual tpe = false) :
    ReorderSDNName name tpe = name := by
  simp [ReorderSDNName, h]

/-- On an individual with no pattern match the name passes through. -/
theorem reorder_nomatch (name tpe : List Char) (h : equalFoldIndividual tpe = true)
    (h2 : surnamePrecedesFind name = []) : ReorderSDNName name tpe = name := by
  simp [ReorderSDNName, h, h2]

/-- On an individual with a pattern match the rewrite formula applies. -/
theorem reorder_match (name tpe : List Char) (h : equalFoldIndividual tpe = true)
    (h2 : surnamePrecedesFind name ≠ []) :
    ReorderSDNName name tpe = trimSpace (dropLeadingComma (surnamePrecedesFind name) ++
      ' ' :: trimSuffix name (surnamePrecedesFind name)) := by
  simp [ReorderSDNName, h, h2]

/-- Removing a suffix after appending it recovers the beginning. -/
theorem trimSuffix_append (pre v : List Char) : trimSuffix (pre ++ v) v = pre := by
  have hlen : (pre ++ v).length - v.length = pre.length := by
    simp [List.length_append]
  have hs : hasSuffix (pre ++ v) v = true := by
    unfold hasSuffix
    rw [decide_eq_true_iff]
    constructor
    · simp [List.length_append]
    · rw [hlen]; exact List.drop_left pre v
  unfold trimSuffix
  rw [if_pos hs, hlen]
  exact List.take_left pre v

/-- Removing the whole string as a suffix leaves nothing. -/
theorem trimSuffix_self (o : List Char) : trimSuffix o o = [] := by
  have := trimSuffix_append [] o
  simpa using this

/-! Bridge between the embedded fold check and ASCII lowering. -/

/-- toNat inverts ofNat at a valid code point. -/
theorem toNat_ofNat_valid (n : Nat) (h : n.isValidChar) : (Char.ofNat n).toNat = n := by
  have hlt : n < 4294967296 := by
    rcases h with h | ⟨h1, h2⟩ <;> omega
  simp only [Char.ofNat, dif_pos h, Char.ofNatAux, Char.toNat]
  simp [UInt32.toNat, BitVec.toNat_ofNat, Nat.mod_eq_of_lt hlt]

/-- Characters with equal code points are equal. -/
theorem char_eq_of_toNat {a b : Char} (h : a.toNat = b.toNat) : a = b :=
  Char.ext (UInt32.ext h)

/-- Against a lower case ASCII letter, one fold comparison agrees with
ASCII lowering. -/
theorem foldPair_toLower (x y : Char) (h1 : 97 ≤ y.toNat) (h2 : y.toNat ≤ 122) :
    (foldPair x y = true ↔ Char.toLower x = y) := by
  unfold foldPair
  rw [decide_eq_true_iff]
  unfold Char.toLower
  constructor
  · rintro (he | ⟨hx1, hx2, hx3⟩ | ⟨hy1, hy2, _⟩)
    · subst he
      rw [if_neg (by omega)]
    · rw [if_pos ⟨hx1, hx2⟩]
      apply char_eq_of_toNat
      rw [toNat_ofNat_valid _ (Or.inl (by omega))]
      exact hx3
    · omega
  · intro he
    by_cases hx : x.toNat ≥ 65 ∧ x.toNat ≤ 90
    · right; left
      refine ⟨hx.1, hx.2, ?_⟩
      rw [if_pos hx] at he
      have hc := congrArg Char.toNat he
      rwa [toNat_ofNat_valid _ (Or.inl (by omega))] at hc
    · left
      rwa [if_neg hx] at he

/-- Fold comparison against an all lower case ASCII target is equality
after ASCII lowering. -/
theorem equalFoldAscii_toLower : ∀ (t target : List Char),
    (∀ y ∈ target, 97 ≤ y.toNat ∧ y.toNat ≤ 122) →
    (equalFoldAscii t target = true ↔ t.map Char.toLower = target) := by
  intro t
  induction t with
  | nil =>
    intro target htg
    cases target with
    | nil => simp [equalFoldAscii]
    | cons y tg => simp [equalFoldAscii]
  | cons x t' ih =>
    intro target htg
    cases target with
    | nil => simp [equalFoldAscii]
    | cons y tg =>
      have hy := htg y (by simp)
      rw [show equalFoldAscii (x :: t') (y :: tg) =
        (foldPair x y && equalFoldAscii t' tg) from rfl]
      rw [Bool.and_eq_true, List.map_cons]
      constructor
      · rintro ⟨h1, h2⟩
        rw [(foldPair_toLower x y hy.1 hy.2).mp h1,
          (ih tg (fun z hz => htg z (List.mem_cons_of_mem y hz))).mp h2]
      · intro h
        injection h with h1 h2
        exact ⟨(foldPair_toLower x y hy.1 hy.2).mpr h1,
          (ih tg (fun z hz => htg z (List.mem_cons_of_mem y hz))).mpr h2⟩

/-- The fold check of ReorderSDNName accepts exactly the strings that equal
individual after ASCII lowering. -/
theorem fold_iff_toLower (tpe : List Char) :
    equalFoldIndividual tpe = true ↔ tpe.map Char.toLower = individualChars :=
  equalFoldAscii_toLower tpe individualChars (by decide)

/-! Fixed point analysis for the idempotence question. -/

/-- No match exists on a string ending in a character outside the class. -/
theorem find_nil_of_last (s : List Char) (d : Char) (hs : s.getLast? = some d)
    (hd : isClassChar d = false) : surnamePrecedesFind s = [] := by
  cases hfo : surnamePrecedesFind s with
  | nil => rfl
  | cons a w =>
    exfalso
    obtain ⟨x, hx, hxc⟩ := find_last_class s (by rw [hfo]; simp)
    rw [hs] at hx
    injection hx with he
    rw [← he] at hxc
    rw [hd] at hxc
    cases hxc

/-- A trimmed string made of class characters only is a fixed point of the
individual reorder. -/
theorem reorder_fixed_all_class (o : List Char)
    (ho : ∀ x ∈ o, isClassChar x = true) (hto : trimSpace o = o) :
    ReorderSDNName o individualChars = o := by
  cases o with
  | nil => exact reorder_nomatch [] individualChars fold_individual rfl
  | cons a w =>
    have ha : isClassChar a = true := ho a (by simp)
    have hac : a ≠ ',' := class_ne_comma a ha
    have hmo : matchesHere (a :: w) = true := by
      rw [matchesHere, if_neg hac, ha, Bool.true_and]
      exact List.all_eq_true.mpr fun x hx => ho x (List.mem_cons_of_mem a hx)
    have hfo : surnamePrecedesFind (a :: w) = a :: w := by
      rw [surnamePrecedesFind, if_pos hmo]
    have hre := reorder_match (a :: w) individualChars fold_individual (by rw [hfo]; simp)
    rw [hfo, trimSuffix_self] at hre
    have hd : dropLeadingComma (a :: w) = a :: w := by simp [dropLeadingComma, hac]
    rw [hd] at hre
    rw [hre]
    rw [show (a :: w) ++ ' ' :: ([] : List Char) = (a :: w) ++ [' '] from rfl]
    rw [trimSpace_snoc_space _ ' ' (by decide), hto]

/-- Core of the amended idempotence: on an individual name free of commas
and free of white space outside the pattern class, one application of the
reorder reaches a fixed point. -/
theorem reorder_individual_idem (name : List Char) (hnc : ',' ∉ name)
    (hws : ∀ c ∈ name, goIsSpace c = true → isClassChar c = true) :
    ReorderSDNName (ReorderSDNName name individualChars) individualChars =
      ReorderSDNName name individualChars := by
  by_cases hv : surnamePrecedesFind name = []
  · have h1 := reorder_nomatch name individualChars fold_individual hv
    rw [h1]
    exact h1
  · obtain ⟨pre, hpre⟩ := find_suffix name
    have hm := find_matches name hv
    have hvsub : ∀ x ∈ surnamePrecedesFind name, x ∈ name := by
      intro x hx; rw [← hpre]; exact List.mem_append.mpr (Or.inr hx)
    have hall : (surnamePrecedesFind name).all isClassChar = true := by
      cases hf : surnamePrecedesFind name with
      | nil => exact absurd hf hv
      | cons a w =>
        apply matches_all_of_not_comma a w (hf ▸ hm)
        intro ha
        apply hnc
        have hain : a ∈ name := hvsub a (by rw [hf]; exact List.mem_cons_self a w)
        rwa [ha] at hain
    have hdrop : dropLeadingComma (surnamePrecedesFind name) = surnamePrecedesFind name := by
      cases hf : surnamePrecedesFind name with
      | nil => rfl
      | cons a w =>
        have ha : a ≠ ',' := by
          intro ha
          apply hnc
          have hain : a ∈ name := hvsub a (by rw [hf]; exact List.mem_cons_self a w)
          rwa [ha] at hain
        simp [dropLeadingComma, ha]
    have htrs : trimSuffix name (surnamePrecedesFind name) = pre := by
      have h := trimSuffix_append pre (surnamePrecedesFind name)
      rwa [hpre] at h
    have hre := reorder_match name individualChars fold_individual hv
    rw [hdrop, htrs] at hre
    rw [hre]
    rcases List.eq_nil_or_concat pre with hpn | ⟨pre', d, hpd⟩
    · subst hpn
      have ho : trimSpace (surnamePrecedesFind name ++ ' ' :: ([] : List Char)) =
          trimSpace (surnamePrecedesFind name) :=
        trimSpace_snoc_space (surnamePrecedesFind name) ' ' (by decide)
      rw [ho]
      apply reorder_fixed_all_class
      · intro x hx
        exact List.all_eq_true.mp hall x (trimSpace_subset _ x hx)
      · exact trimSpace_idem _
    · rw [List.concat_eq_append] at hpd
      have hd_in : d ∈ name := by
        rw [← hpre, hpd]
        simp
      have hd_comma : d ≠ ',' := fun h => hnc (h ▸ hd_in)
      have hmt : matchesHere (d :: surnamePrecedesFind name) = false := by
        apply find_longest name (d :: surnamePrecedesFind name) pre'
        · conv_rhs => rw [← hpre]
          rw [hpd]
          simp
        · simp
      have hdclass : isClassChar d = false := by
        rw [matchesHere, if_neg hd_comma, hall, Bool.and_true] at hmt
        exact hmt
      have hdspace : goIsSpace d = false := by
        cases hgd : goIsSpace d with
        | false => rfl
        | true => exact absurd (hws d hd_in hgd) (by simp [hdclass])
      have hassoc : surnamePrecedesFind name ++ ' ' :: pre =
          (surnamePrecedesFind name ++ ' ' :: pre') ++ [d] := by
        rw [hpd]
        simp
      rw [hassoc]
      have htl : trimLeft ((surnamePrecedesFind name ++ ' ' :: pre') ++ [d]) =
          trimLeft (surnamePrecedesFind name ++ ' ' :: pre') ++ [d] :=
        dropWhile_append_last _ d hdspace
      have ho : trimSpace ((surnamePrecedesFind name ++ ' ' :: pre') ++ [d]) =
          trimLeft (surnamePrecedesFind name ++ ' ' :: pre') ++ [d] := by
        unfold trimSpace
        rw [htl]
        exact trimRight_of_last _ d (List.getLast?_concat _) hdspace
      rw [ho]
      exact reorder_nomatch _ _ fold_individual
        (find_nil_of_last _ d (List.getLast?_concat _) hdclass)

/-! Content preservation helpers. -/

/-- Trimming removes only characters that the content filter drops
anyway. -/
theorem filter_keep_trimSpace (x : List Char) :
    (trimSpace x).filter keepChar = x.filter keepChar := by
  have hkeep : ∀ c, goIsSpace c = true → keepChar c = false := by
    intro c hc
    unfold keepChar
    rw [hc]
    rfl
  obtain ⟨w, hwall, hw⟩ := dropWhile_decomp (p := goIsSpace) x
  obtain ⟨t, htall, ht⟩ := trimRight_decomp (trimLeft x)
  have hwf : w.filter keepChar = [] :=
    List.filter_eq_nil_iff.mpr fun c hc => by simp [hkeep c (hwall c hc)]
  have htf : t.filter keepChar = [] :=
    List.filter_eq_nil_iff.mpr fun c hc => by simp [hkeep c (htall c hc)]
  have hw' : w ++ trimLeft x = x := hw
  have e1 : x.filter keepChar = w.filter keepChar ++ (trimLeft x).filter keepChar := by
    rw [← List.filter_append, hw']
  have e2 : (trimLeft x).filter keepChar =
      (trimSpace x).filter keepChar ++ t.filter keepChar := by
    rw [← List.filter_append]
    show _ = ((trimRight (trimLeft x)) ++ t).filter keepChar
    rw [ht]
  rw [e2] at e1
  rw [e1, hwf, htf]
  simp

/-- Removing the leading comma does not change the filtered content. -/
theorem filter_keep_dropComma (v : List Char) :
    (dropLeadingComma v).filter keepChar = v.filter keepChar := by
  cases v with
  | nil => rfl
  | cons c rest =>
    by_cases hc : c = ','
    · subst hc
      have hkc : ¬keepChar ',' = true := by decide
      simp [dropLeadingComma, List.filter_cons_of_neg hkc]
    · simp [dropLeadingComma, hc]

/-! Claim theorems. -/

/-- C1: the three literal cases. ReorderSDNName turns the comma form
MADURO MOROS, Nicolas into Nicolas MADURO MOROS; the organization name
FELIX B. MADURO S.A. passes through under every type that is not, up to
case, individual; and the single token name Doe passes through. -/
theorem claim_C1_literal_cases :
    ReorderSDNName (str "MADURO MOROS, Nicolas") (str "individual") =
      str "Nicolas MADURO MOROS" ∧
    (∀ tpe : List Char, tpe.map Char.toLower ≠ individualChars →
      ReorderSDNName (str "FELIX B. MADURO S.A.") tpe = str "FELIX B. MADURO S.A.") ∧
    ReorderSDNName (str "Doe") (str "individual") = str "Doe" := by
  refine ⟨by decide, ?_, by decide⟩
  intro tpe htpe
  apply reorder_notfold
  cases hf : equalFoldIndividual tpe with
  | false => rfl
  | true => exact absurd ((fold_iff_toLower tpe).mp hf) htpe

/-- Witness for C1 at the concrete non individual type Organization. -/
theorem claim_C1_witness :
    ReorderSDNName (str "FELIX B. MADURO S.A.") (str "Organization") =
      str "FELIX B. MADURO S.A." :=
  claim_C1_literal_cases.2.1 (str "Organization") (by decide)

/-- C2: for every name and every type that is not, up to ASCII case,
individual, the name passes through unchanged. -/
theorem claim_C2_non_individual_pass (name tpe : List Char)
    (h : tpe.map Char.toLower ≠ individualChars) : ReorderSDNName name tpe = name := by
  apply reorder_notfold
  cases hf : equalFoldIndividual tpe with
  | false => rfl
  | true => exact absurd ((fold_iff_toLower tpe).mp hf) h

/-- Witness for C2 at a concrete name and type. -/
theorem claim_C2_witness :
    ReorderSDNName (str "MADURO MOROS, Nicolas") (str "vessel") =
      str "MADURO MOROS, Nicolas" :=
  claim_C2_non_individual_pass (str "MADURO MOROS, Nicolas") (str "vessel") (by decide)

/-- C3 counterexample: the pattern class also holds the question mark, a
character outside the letters, spaces and periods set named by the claim.
The name A, b? ends in a question mark, so by the claim it has no
qualifying suffix and must pass through unchanged; the code rewrites it to
b? A, and the detected suffix contains the question mark. -/
theorem claim_C3_counterexample :
    specSuffixChar '?' = false ∧
    (str "A, b?").getLast? = some '?' ∧
    ReorderSDNName (str "A, b?") (str "individual") = str "b? A" ∧
    str "b? A" ≠ str "A, b?" ∧
    '?' ∈ surnamePrecedesFind (str "A, b?") := by decide

/-- C3 amended: for type individual the rewrite applies exactly when the
name ends in a character of the pattern class, which holds the RE2 white
space characters (tab, line feed, form feed, carriage return, space), the
question mark, the ASCII letters and the period; a name whose last
character is outside that class passes through unchanged; and the detected
suffix consists of an optional leading comma followed by class characters
only. -/
theorem claim_C3_match_condition (name : List Char) :
    (surnamePrecedesFind name ≠ [] ↔
      ∃ c, name.getLast? = some c ∧ isClassChar c = true) ∧
    (surnamePrecedesFind name = [] → ReorderSDNName name individualChars = name) ∧
    (∀ c ∈ dropLeadingComma (surnamePrecedesFind name), isClassChar c = true) := by
  refine ⟨⟨find_last_class name, ?_⟩, ?_, ?_⟩
  · rintro ⟨c, hc, hcc⟩
    exact last_class_find name c hc hcc
  · intro h
    exact reorder_nomatch name individualChars fold_individual h
  · intro c hc
    by_cases hn : surnamePrecedesFind name = []
    · rw [hn] at hc
      simp [dropLeadingComma] at hc
    · have hm := find_matches name hn
      exact List.all_eq_true.mp (matches_dropComma _ hm).2 c hc

/-- Witness for C3 at a concrete name ending outside the class. -/
theorem claim_C3_witness :
    ReorderSDNName (str "x1") individualChars = str "x1" :=
  (claim_C3_match_condition (str "x1")).2.1 (by decide)

/-- C4 counterexample: the function is not idempotent. On the individual
name Smith, John, Jr. a first application yields Jr. Smith, John and a
second application changes that again. -/
theorem claim_C4_counterexample :
    ReorderSDNName (ReorderSDNName (str "Smith, John, Jr.") (str "individual"))
        (str "individual") ≠
      ReorderSDNName (str "Smith, John, Jr.") (str "individual") := by decide

/-- C4 amended: ReorderSDNName is idempotent for every type that does not
fold to individual, and for individual names that contain no comma and no
white space outside the pattern class; a name with a comma (or with exotic
white space such as a no break space) may keep changing under repeated
application. -/
theorem claim_C4_idempotent_cases (name tpe : List Char) :
    (equalFoldIndividual tpe = false →
      ReorderSDNName (ReorderSDNName name tpe) tpe = ReorderSDNName name tpe) ∧
    (',' ∉ name → (∀ c ∈ name, goIsSpace c = true → isClassChar c = true) →
      ReorderSDNName (ReorderSDNName name individualChars) individualChars =
        ReorderSDNName name individualChars) := by
  constructor
  · intro h
    have h1 := reorder_notfold name tpe h
    rw [h1]
    exact h1
  · exact reorder_individual_idem name

/-- Witness for C4 on a comma free individual name and a non individual
type. -/
theorem claim_C4_witness :
    ReorderSDNName (ReorderSDNName (str "John Doe") individualChars) individualChars =
      ReorderSDNName (str "John Doe") individualChars ∧
    ReorderSDNName (ReorderSDNName (str "John Doe") (str "entity")) (str "entity") =
      ReorderSDNName (str "John Doe") (str "entity") :=
  ⟨(claim_C4_idempotent_cases (str "John Doe") individualChars).2 (by decide) (by decide),
   (claim_C4_idempotent_cases (str "John Doe") (str "entity")).1 (by decide)⟩

/-- C5: a nonempty individual name made of ASCII letters only passes
through unchanged. -/
theorem claim_C5_single_token (name : List Char) (hne : name ≠ [])
    (hl : ∀ c ∈ name, isAsciiLetter c = true) :
    ReorderSDNName name individualChars = name := by
  have hclass : ∀ c ∈ name, isClassChar c = true := by
    intro c hc
    have hlc := hl c hc
    unfold isAsciiLetter at hlc
    unfold isClassChar
    rw [decide_eq_true_iff] at hlc ⊢
    omega
  have hnos : ∀ c ∈ name, goIsSpace c = false := by
    intro c hc
    have hlc := hl c hc
    unfold isAsciiLetter at hlc
    unfold goIsSpace
    rw [decide_eq_true_iff] at hlc
    rw [decide_eq_false_iff_not]
    omega
  cases name with
  | nil => exact absurd rfl hne
  | cons a w =>
    have ha := hclass a (by simp)
    have hac : a ≠ ',' := class_ne_comma a ha
    have hm : matchesHere (a :: w) = true := by
      rw [matchesHere, if_neg hac, ha, Bool.true_and]
      exact List.all_eq_true.mpr fun x hx => hclass x (List.mem_cons_of_mem a hx)
    have hf : surnamePrecedesFind (a :: w) = a :: w := by
      rw [surnamePrecedesFind, if_pos hm]
    have hre := reorder_match (a :: w) individualChars fold_individual (by rw [hf]; simp)
    rw [hf, trimSuffix_self] at hre
    have hd : dropLeadingComma (a :: w) = a :: w := by simp [dropLeadingComma, hac]
    rw [hd] at hre
    rw [hre]
    rw [show (a :: w) ++ ' ' :: ([] : List Char) = (a :: w) ++ [' '] from rfl]
    rw [trimSpace_snoc_space _ ' ' (by decide)]
    show trimSpace (a :: w) = a :: w
    unfold trimSpace
    rw [trimLeft_of_head (a :: w) rfl (hnos a (by simp))]
    cases hgl : (a :: w).getLast? with
    | none => exact absurd (List.getLast?_eq_none_iff.mp hgl) (by simp)
    | some x =>
      exact trimRight_of_last _ x hgl (hnos x (List.mem_of_mem_getLast? hgl))

/-- Witness for C5 at the single token Doe. -/
theorem claim_C5_witness : ReorderSDNName (str "Doe") individualChars = str "Doe" :=
  claim_C5_single_token (str "Doe") (by decide) (by decide)

/-- C6 counterexample: on the individual name made of two commas and three
spaces the rewrite produces a single comma, so the result of a rewrite can
begin with a comma. -/
theorem claim_C6_counterexample :
    ReorderSDNName (str ",,   ") (str "individual") = str "," ∧
    (ReorderSDNName (str ",,   ") (str "individual")).head? = some ',' := by decide

/-- C6 amended: whenever the pattern matches, the result equals TrimSpace
of the comma stripped match, one space, and the name with the matched
suffix removed; the result carries no leading and no trailing white space;
and it does not begin with a comma provided the comma stripped match holds
at least one non white space character (when the match minus its comma is
all white space, the moved front segment trims away and a comma from the
remaining beginning can surface first). -/
theorem claim_C6_rewrite_shape (name : List Char)
    (h : surnamePrecedesFind name ≠ []) :
    ReorderSDNName name individualChars =
      trimSpace (dropLeadingComma (surnamePrecedesFind name) ++
        ' ' :: trimSuffix name (surnamePrecedesFind name)) ∧
    (∀ c, (ReorderSDNName name individualChars).head? = some c → goIsSpace c = false) ∧
    (∀ c, (ReorderSDNName name individualChars).getLast? = some c → goIsSpace c = false) ∧
    ((∃ c ∈ dropLeadingComma (surnamePrecedesFind name), goIsSpace c = false) →
      (ReorderSDNName name individualChars).head? ≠ some ',') := by
  have hre := reorder_match name individualChars fold_individual h
  refine ⟨hre, ?_, ?_, ?_⟩
  · intro c hc
    rw [hre] at hc
    exact trimSpace_head _ hc
  · intro c hc
    rw [hre] at hc
    exact trimSpace_last _ hc
  · rintro ⟨x, hx, hxs⟩ hhead
    rw [hre] at hhead
    have hstop := dropWhile_append_stop (p := goIsSpace)
      (dropLeadingComma (surnamePrecedesFind name))
      (' ' :: trimSuffix name (surnamePrecedesFind name)) ⟨x, hx, hxs⟩
    have h2 := trimRight_head _ hhead
    unfold trimLeft at h2
    rw [hstop] at h2
    cases hdw : (dropLeadingComma (surnamePrecedesFind name)).dropWhile goIsSpace with
    | nil =>
      rw [hdw] at h2
      simp at h2
    | cons b bs =>
      rw [hdw] at h2
      simp only [List.cons_append, List.head?_cons, Option.some.injEq] at h2
      have hbv : b ∈ dropLeadingComma (surnamePrecedesFind name) := by
        obtain ⟨w, _, hw⟩ := dropWhile_decomp (p := goIsSpace)
          (dropLeadingComma (surnamePrecedesFind name))
        rw [← hw, hdw]
        simp
      have hmv := find_matches name h
      have hbc : isClassChar b = true :=
        List.all_eq_true.mp (matches_dropComma _ hmv).2 b hbv
      exact class_ne_comma b hbc h2

/-- Witness for C6 at the MADURO name. -/
theorem claim_C6_witness :
    (ReorderSDNName (str "MADURO MOROS, Nicolas") individualChars).head? ≠ some ',' :=
  (claim_C6_rewrite_shape (str "MADURO MOROS, Nicolas") (by decide)).2.2.2 (by decide)

/-- C7: ReorderSDNName is a pure function of its two arguments: equal
inputs give equal outputs, which the embedding as a total Lean function of
exactly the name and the type witnesses. -/
theorem claim_C7_deterministic (name1 tpe1 name2 tpe2 : List Char)
    (hn : name1 = name2) (ht : tpe1 = tpe2) :
    ReorderSDNName name1 tpe1 = ReorderSDNName name2 tpe2 := by
  rw [hn, ht]

/-- Witness for C7 with two identical calls. -/
theorem claim_C7_witness :
    ReorderSDNName (str "Doe, John") (str "individual") =
      ReorderSDNName (str "Doe, John") (str "individual") :=
  claim_C7_deterministic (str "Doe, John") (str "individual")
    (str "Doe, John") (str "individual") rfl rfl

/-- C8: the type check is ASCII case insensitive: any type spelling that
lowers to individual behaves exactly like the literal individual, and any
other type passes the name through. -/
theorem claim_C8_case_insensitive (name tpe : List Char) :
    (tpe.map Char.toLower = individualChars →
      ReorderSDNName name tpe = ReorderSDNName name individualChars) ∧
    (tpe.map Char.toLower ≠ individualChars → ReorderSDNName name tpe = name) := by
  constructor
  · intro h
    have hf : equalFoldIndividual tpe = true := (fold_iff_toLower tpe).mpr h
    by_cases hv : surnamePrecedesFind name = []
    · rw [reorder_nomatch name tpe hf hv,
        reorder_nomatch name individualChars fold_individual hv]
    · rw [reorder_match name tpe hf hv,
        reorder_match name individualChars fold_individual hv]
  · intro h
    apply reorder_notfold
    cases hf : equalFoldIndividual tpe with
    | false => rfl
    | true => exact absurd ((fold_iff_toLower tpe).mp hf) h

/-- Witness for C8 at the spellings INDIVIDUAL and vessel. -/
theorem claim_C8_witness :
    ReorderSDNName (str "MADURO MOROS, Nicolas") (str "INDIVIDUAL") =
      ReorderSDNName (str "MADURO MOROS, Nicolas") individualChars ∧
    ReorderSDNName (str "Doe, Jane") (str "aircraft") = str "Doe, Jane" :=
  ⟨(claim_C8_case_insensitive (str "MADURO MOROS, Nicolas") (str "INDIVIDUAL")).1
      (by decide),
   (claim_C8_case_insensitive (str "Doe, Jane") (str "aircraft")).2 (by decide)⟩

/-- C9: ReorderSDNName is total and maps the empty name to the empty name
under every type. -/
theorem claim_C9_total (tpe : List Char) :
    (∀ name : List Char, ∃ out, ReorderSDNName name tpe = out) ∧
    ReorderSDNName [] tpe = [] := by
  refine ⟨fun name => ⟨_, rfl⟩, ?_⟩
  cases hf : equalFoldIndividual tpe with
  | false => exact reorder_notfold [] tpe hf
  | true => exact reorder_nomatch [] tpe hf rfl

/-- C10: for every name and type, the multiset of characters other than
white space and commas is preserved by ReorderSDNName. -/
theorem claim_C10_content (name tpe : List Char) :
    (((ReorderSDNName name tpe).filter keepChar : List Char) : Multiset Char) =
      ((name.filter keepChar : List Char) : Multiset Char) := by
  rw [Multiset.coe_eq_coe]
  cases hf : equalFoldIndividual tpe with
  | false =>
    rw [reorder_notfold name tpe hf]
  | true =>
    by_cases hv : surnamePrecedesFind name = []
    · rw [reorder_nomatch name tpe hf hv]
    · obtain ⟨pre, hpre⟩ := find_suffix name
      have htrs : trimSuffix name (surnamePrecedesFind name) = pre := by
        have h := trimSuffix_append pre (surnamePrecedesFind name)
        rwa [hpre] at h
      rw [reorder_match name tpe hf hv, htrs]
      rw [filter_keep_trimSpace, List.filter_append, filter_keep_dropComma]
      have hsp : ¬keepChar ' ' = true := by decide
      rw [List.filter_cons_of_neg hsp]
      have hn : name.filter keepChar =
          pre.filter keepChar ++ (surnamePrecedesFind name).filter keepChar := by
        rw [← List.filter_append, hpre]
      rw [hn]
      exact List.perm_append_comm

end Prepare
